import Mathlib

/-!
Shallow embedding of `src/tremolo_converter.py` (Guitar-Pro-Tremolo-Converter).

The script walks an in-memory song graph (tracks, measures, voices, beats,
notes), replaces tremolo-picked beats by sequences of shorter beats, and
repairs voices that overflow their measure capacity.  Only the attributes the
script actually reads or writes are modelled; Python `Fraction` values become
`ℚ`, in-place list mutation becomes explicit list surgery, and exceptions
become `Except`.
-/

namespace Tremolo

/-- Duration descriptor: pyguitarpro `Duration` with the three attributes the
script touches (`value`, `isDotted`, `isDoubleDotted`). -/
structure Duration where
  value : Nat
  isDotted : Bool
  isDoubleDotted : Bool
deriving DecidableEq, Repr

/-- Tremolo-picking marker object; the script only reads `.duration.value`
from it (line 95). -/
structure TremoloPicking where
  duration : Duration
deriving DecidableEq, Repr

/-- Effect descriptor of a note: the script only reads and writes its
`tremoloPicking` attribute (`None` in Python becomes `none`). -/
structure NoteEffect where
  tremoloPicking : Option TremoloPicking
deriving DecidableEq, Repr

/-- Note: the fields copied by `create_individual_notes` (lines 130-134)
plus the effect descriptor. -/
structure Note where
  value : Int
  string : Nat
  type : Nat
  velocity : Int
  effect : NoteEffect
deriving DecidableEq, Repr

/-- Effect descriptor of a beat, holding the optional tremolo marker. -/
structure BeatEffect where
  tremoloPicking : Option TremoloPicking
deriving DecidableEq, Repr

/-- Beat: duration, effect and the (possibly empty) chord of notes. -/
structure Beat where
  duration : Duration
  effect : BeatEffect
  notes : List Note
deriving DecidableEq, Repr

/-- Voice: an ordered beat sequence. -/
structure Voice where
  beats : List Beat
deriving DecidableEq, Repr

/-- Dynamic attribute value, for the `hasattr`-probing and `int(...)` coercion
in `get_time_signature_duration` (lines 67-86): an attribute may hold an
integer, Python `None`, or a string. -/
inductive PyVal where
  | vint (n : Int)
  | vnone
  | vstr (s : String)
deriving DecidableEq, Repr

/-- Python exceptions relevant to `get_time_signature_duration`. -/
inductive PyErr where
  | attributeError
  | typeError
  | valueError
  | zeroDivisionError
deriving DecidableEq, Repr

/-- Time signature: `numerator` and `denominator` attributes, each possibly
absent (`none` here stands for the attribute not existing, which raises
`AttributeError` when accessed). -/
structure TimeSignature where
  numerator : Option PyVal
  denominator : Option PyVal
deriving DecidableEq, Repr

/-- Measure: the `measure.header.timeSignature` chain collapsed into one
optional field (the script probes both levels with `hasattr`, line 69), plus
the voices. -/
structure Measure where
  tsHeader : Option TimeSignature
  voices : List Voice
deriving DecidableEq, Repr

/-! Source function `has_tremolo_picking` (lines 21-28). -/

/-- Lines 21-28: a beat has tremolo picking if its effect carries a non-None
marker or any of its notes does. -/
def has_tremolo_picking (beat : Beat) : Bool :=
  beat.effect.tremoloPicking.isSome
    || beat.notes.any (fun note => note.effect.tremoloPicking.isSome)

/-- Lines 31-37: clear the marker on the beat effect and on every note
effect (Python mutates in place; here we return the updated beat). -/
def remove_tremolo_effect (beat : Beat) : Beat :=
  { beat with
    effect := { beat.effect with tremoloPicking := none }
    notes := beat.notes.map (fun note =>
      { note with effect := { note.effect with tremoloPicking := none } }) }

/-- Lines 40-47: convert a GP duration to a fraction of a whole note;
double-dotted takes precedence over dotted. -/
def duration_to_fraction (duration_value : Nat)
    (is_dotted : Bool := false) (is_double_dotted : Bool := false) : ℚ :=
  let base_fraction : ℚ := 1 / (duration_value : ℚ)
  if is_double_dotted then base_fraction * (7 / 4)
  else if is_dotted then base_fraction * (3 / 2)
  else base_fraction

/-- Lines 50-54: duration fraction of a beat, respecting its dot flags. -/
def get_beat_duration_fraction (beat : Beat) : ℚ :=
  duration_to_fraction beat.duration.value beat.duration.isDotted
    beat.duration.isDoubleDotted

/-- Lines 57-64: running start offsets of the beats of a voice. -/
def calculate_beat_positions_aux (current_pos : ℚ) : List Beat → List ℚ
  | [] => []
  | beat :: rest =>
      current_pos ::
        calculate_beat_positions_aux (current_pos + get_beat_duration_fraction beat) rest

/-- Lines 57-64: positions list for a voice (used only for diagnostics). -/
def calculate_beat_positions (voice : Voice) : List ℚ :=
  calculate_beat_positions_aux 0 voice.beats

/-! Source function `get_time_signature_duration` (lines 67-86). -/

/-- Python `int(ts.attr)`: accessing a missing attribute raises
`AttributeError`; `int(None)` raises `TypeError`; `int` of a non-numeric
string raises `ValueError`. -/
def read_int (attr : Option PyVal) : Except PyErr Int :=
  match attr with
  | none => .error .attributeError
  | some (.vint n) => .ok n
  | some .vnone => .error .typeError
  | some (.vstr s) =>
      match s.toInt? with
      | some n => .ok n
      | none => .error .valueError

/-- Python `Fraction(numerator, denominator)`: raises `ZeroDivisionError` on a
zero denominator, otherwise the exact rational. -/
def make_fraction (numerator denominator : Int) : Except PyErr ℚ :=
  if denominator = 0 then .error .zeroDivisionError
  else .ok ((numerator : ℚ) / (denominator : ℚ))

/-- Lines 71-74 (and the identical retry in lines 76-79): the body of the
`try` block, `int` both attributes then build the fraction. -/
def try_read_ts (ts : TimeSignature) : Except PyErr ℚ := do
  let numerator ← read_int ts.numerator
  let denominator ← read_int ts.denominator
  make_fraction numerator denominator

/-- Lines 67-86: measure capacity.  No header/timeSignature attribute gives 1
with no diagnostic; `AttributeError` enters a retry whose bare `except` turns
any failure into 1 with a warning; `TypeError` gives 1 with a warning; every
other exception (`ValueError`, `ZeroDivisionError`) propagates. -/
def get_time_signature_duration (measure : Measure) :
    Except PyErr (ℚ × List String) :=
  match measure.tsHeader with
  | none => .ok (1, [])
  | some ts =>
      match try_read_ts ts with
      | .ok q => .ok (q, [])
      | .error .attributeError =>
          match try_read_ts ts with
          | .ok q => .ok (q, [])
          | .error _ =>
              .ok (1, ["Warning: Could not reliably read time signature numerator/denominator. Defaulting to 4/4."])
      | .error .typeError =>
          .ok (1, ["Warning: Time signature numerator or denominator are not valid numbers. Defaulting to 4/4."])
      | .error e => .error e

/-! Source function `create_individual_notes` (lines 89-165). -/

/-- Lines 94-107: resolve the target duration from the optional speed object,
together with the warnings printed on the fallback paths. -/
def resolve_target (tremolo_speed_object : Option TremoloPicking) :
    Nat × List String :=
  match tremolo_speed_object with
  | some speed =>
      let speed_value := speed.duration.value
      if speed_value = 8 then (8, [])
      else if speed_value = 16 then (16, [])
      else if speed_value = 32 then (32, [])
      else (16, ["Warning: Unknown tremolo duration value. Defaulting to 16th."])
  | none => (16, ["Warning: Tremolo speed object not found, defaulting to 16th notes."])

/-- Lines 117-137 loop counter: `while remaining >= target: remaining -=
target`.  At every call site `target` is one of 1/8, 1/16, 1/32, hence
positive; the positivity conjunct in the guard (vacuous at those call sites)
is what makes the recursion terminate. -/
def subdivision_count (remaining target : ℚ) : Nat :=
  if h : 0 < target ∧ target ≤ remaining then
    subdivision_count (remaining - target) target + 1
  else 0
termination_by (⌊remaining / target⌋).toNat
decreasing_by
  have ht : 0 < target := h.1
  have h1 : (1 : ℚ) ≤ remaining / target := (one_le_div ht).2 h.2
  have hfl : (1 : ℤ) ≤ ⌊remaining / target⌋ := Int.le_floor.2 (by exact_mod_cast h1)
  have hsub : (remaining - target) / target = remaining / target - 1 := by
    rw [sub_div, div_self (ne_of_gt ht)]
  have hfloor : ⌊(remaining - target) / target⌋ = ⌊remaining / target⌋ - 1 := by
    rw [hsub]
    exact_mod_cast Int.floor_sub_int (remaining / target) 1
  simp only [hfloor]
  omega

/-- Lines 145-159: one replacement chord beat: target duration with cleared
dot flags, fresh neutral effect, and a clone of every original note (pitch,
string, type, velocity copied; fresh neutral note effect). -/
def make_chord_beat (original_beat : Beat) (target_duration : Nat) : Beat :=
  { duration := { value := target_duration, isDotted := false, isDoubleDotted := false }
    effect := { tremoloPicking := none }
    notes := original_beat.notes.map (fun original_note =>
      { value := original_note.value
        string := original_note.string
        type := original_note.type
        velocity := original_note.velocity
        effect := { tremoloPicking := none } }) }

/-- Lines 89-165: the subdivider.  The Python builds per-note streams only to
count iterations (lines 116-137) and then emits `num_subdivisions` identical
chord beats (lines 142-160); with value semantics that is `replicate count
(make_chord_beat ...)`.  A beat with no notes yields the empty list (lines
161-163).  The second component is the list of printed warnings. -/
def create_individual_notes (original_beat : Beat)
    (tremolo_speed_object : Option TremoloPicking) : List Beat × List String :=
  let original_duration_fraction := get_beat_duration_fraction original_beat
  let resolved := resolve_target tremolo_speed_object
  let target_duration_fraction := duration_to_fraction resolved.1
  if 0 < original_beat.notes.length then
    (List.replicate (subdivision_count original_duration_fraction target_duration_fraction)
        (make_chord_beat original_beat resolved.1),
      resolved.2)
  else ([], resolved.2)

/-! Source function `convert_tremolo_in_measure` (lines 168-208). -/

/-- Lines 180-183: the note scan; the accumulator is the value set by the
beat-level check (lines 178-179), overwritten by the first note-level marker
found. -/
def find_note_tremolo (acc : Option TremoloPicking) :
    List Note → Option TremoloPicking
  | [] => acc
  | note :: rest =>
      match note.effect.tremoloPicking with
      | some t => some t
      | none => find_note_tremolo acc rest

/-- Lines 177-183: speed extraction for a detected beat: start from the
beat-level marker, then let the first note-level marker (if any) replace it. -/
def extract_tremolo_speed (beat : Beat) : Option TremoloPicking :=
  find_note_tremolo beat.effect.tremoloPicking beat.notes

/-- Lines 174-187: the detection pass, enumerating the voice and collecting
(index, beat, extracted speed) for every tremolo beat.  (The beat position
and original duration are also collected in the source but only printed.) -/
def collect_aux (index : Nat) : List Beat → List (Nat × Beat × Option TremoloPicking)
  | [] => []
  | beat :: rest =>
      (if has_tremolo_picking beat then [(index, beat, extract_tremolo_speed beat)] else [])
        ++ collect_aux (index + 1) rest

/-- Lines 192-207, one iteration: subdivide; with at most one replacement
strip the marker in place (the mutated object still sits at its original
index, reverse-order processing leaves lower indices untouched), otherwise
pop the index and splice the replacements there. -/
def apply_one (beats : List Beat) (item : Nat × Beat × Option TremoloPicking) :
    List Beat :=
  let (beat_idx, beat, speed) := item
  let new_beats := (create_individual_notes beat speed).1
  if new_beats.length ≤ 1 then
    beats.set beat_idx (remove_tremolo_effect beat)
  else
    beats.take beat_idx ++ new_beats ++ beats.drop (beat_idx + 1)

/-- Lines 171-207 for a single voice: collect on the unmutated voice, then
fold in reverse index order. -/
def convert_voice (voice : Voice) : Voice :=
  Voice.mk (List.foldl apply_one voice.beats (collect_aux 0 voice.beats).reverse)

/-- Lines 168-208: rewrite every voice; the counter is one per collected
tremolo beat. -/
def convert_tremolo_in_measure (measure : Measure) : Measure × Nat :=
  ({ measure with voices := measure.voices.map convert_voice },
    (measure.voices.map (fun voice => (collect_aux 0 voice.beats).length)).sum)

/-! Source function `validate_measure_timing` (lines 211-231). -/

/-- Lines 215-217: total duration of a beat list. -/
def sum_durations (beats : List Beat) : ℚ :=
  (beats.map get_beat_duration_fraction).sum

/-- Lines 221-228: greedy prefix keeping: append a beat while the running sum
stays within capacity, stop at the first beat that would overflow. -/
def keep_beats (capacity current : ℚ) : List Beat → List Beat
  | [] => []
  | beat :: rest =>
      let beat_duration := get_beat_duration_fraction beat
      if current + beat_duration ≤ capacity then
        beat :: keep_beats capacity (current + beat_duration) rest
      else []

/-- Lines 214-231 for one voice: replace the beat list by the kept prefix
when the total overflows capacity.  (The source assigns only when the kept
list is strictly shorter; when it is not, the assignment would be the
identity, so the value is the same.) -/
def validate_voice (capacity : ℚ) (voice : Voice) : Voice :=
  if capacity < sum_durations voice.beats then
    Voice.mk (keep_beats capacity 0 voice.beats)
  else voice

/-- Lines 211-231: compute the capacity once, then repair every voice; an
exception from the capacity computation propagates. -/
def validate_measure_timing (measure : Measure) : Except PyErr Measure :=
  match get_time_signature_duration measure with
  | .error e => .error e
  | .ok (capacity, _) =>
      .ok { measure with voices := measure.voices.map (validate_voice capacity) }

/-! Basic arithmetic lemmas about the embedded definitions. -/

lemma duration_to_fraction_nonneg (v : ℕ) (d dd : Bool) :
    0 ≤ duration_to_fraction v d dd := by
  unfold duration_to_fraction
  dsimp only
  split_ifs <;> positivity

lemma get_beat_duration_fraction_nonneg (beat : Beat) :
    0 ≤ get_beat_duration_fraction beat :=
  duration_to_fraction_nonneg _ _ _

lemma sum_durations_nil : sum_durations [] = 0 := rfl

lemma sum_durations_cons (beat : Beat) (rest : List Beat) :
    sum_durations (beat :: rest) = get_beat_duration_fraction beat + sum_durations rest := by
  simp [sum_durations]

lemma sum_durations_nonneg (beats : List Beat) : 0 ≤ sum_durations beats := by
  induction beats with
  | nil => simp [sum_durations_nil]
  | cons beat rest ih =>
      rw [sum_durations_cons]
      exact add_nonneg (get_beat_duration_fraction_nonneg beat) ih

/-- The resolved target duration is always one of 8, 16, 32. -/
lemma resolve_target_cases (s : Option TremoloPicking) :
    (resolve_target s).1 = 8 ∨ (resolve_target s).1 = 16 ∨ (resolve_target s).1 = 32 := by
  match s with
  | none => simp [resolve_target]
  | some sp =>
      unfold resolve_target
      dsimp only
      split_ifs <;> simp

/-- The resolved target fraction is positive. -/
lemma resolve_target_fraction_pos (s : Option TremoloPicking) :
    0 < duration_to_fraction (resolve_target s).1 := by
  rcases resolve_target_cases s with h | h | h <;> rw [h] <;> norm_num [duration_to_fraction]

/-- The repeated-subtraction loop of lines 119-137 computes exact-rational
floor division. -/
lemma subdivision_count_eq_floor (t : ℚ) (ht : 0 < t) :
    ∀ r : ℚ, 0 ≤ r → subdivision_count r t = (⌊r / t⌋).toNat := by
  suffices h : ∀ (n : ℕ) (r : ℚ), 0 ≤ r → (⌊r / t⌋).toNat = n → subdivision_count r t = n by
    intro r hr
    exact h _ r hr rfl
  intro n
  induction n with
  | zero =>
      intro r hr h0
      rw [subdivision_count, dif_neg]
      rintro ⟨-, htr⟩
      have h1 : (1 : ℚ) ≤ r / t := (one_le_div ht).2 htr
      have h2 : (1 : ℤ) ≤ ⌊r / t⌋ := Int.le_floor.2 (by exact_mod_cast h1)
      omega
  | succ n ih =>
      intro r hr hs
      have htr : t ≤ r := by
        by_contra hlt
        push_neg at hlt
        have h1 : r / t < 1 := (div_lt_one ht).2 hlt
        have h2 : (0 : ℚ) ≤ r / t := div_nonneg hr (le_of_lt ht)
        have h3 : ⌊r / t⌋ = 0 := Int.floor_eq_zero_iff.2 ⟨h2, h1⟩
        omega
      rw [subdivision_count, dif_pos ⟨ht, htr⟩]
      have hsub : (r - t) / t = r / t - 1 := by rw [sub_div, div_self (ne_of_gt ht)]
      have hfl : ⌊(r - t) / t⌋ = ⌊r / t⌋ - 1 := by
        rw [hsub]
        exact_mod_cast Int.floor_sub_int (r / t) 1
      have h1 : (1 : ℚ) ≤ r / t := (one_le_div ht).2 htr
      have h2 : (1 : ℤ) ≤ ⌊r / t⌋ := Int.le_floor.2 (by exact_mod_cast h1)
      rw [ih (r - t) (sub_nonneg.2 htr) (by omega)]

/-! Characterisation of the Measure Rewriter. -/

/-- Per-beat rewrite policy in the words of spec section 4.5: a beat without
tremolo is kept; a tremolo beat whose subdivision has at most one element is
kept in place with its markers stripped; otherwise it is replaced by the
replacement sequence.  The rewriter theorems compare the reverse-index
fold of the source against one application of this policy per beat. -/
def beatRewriteSpec (beat : Beat) : List Beat :=
  if has_tremolo_picking beat then
    let new_beats := (create_individual_notes beat (extract_tremolo_speed beat)).1
    if new_beats.length ≤ 1 then [remove_tremolo_effect beat] else new_beats
  else [beat]

lemma has_tremolo_remove (beat : Beat) :
    has_tremolo_picking (remove_tremolo_effect beat) = false := by
  simp [has_tremolo_picking, remove_tremolo_effect, List.any_map, Function.comp]

lemma has_tremolo_chord (beat : Beat) (t : ℕ) :
    has_tremolo_picking (make_chord_beat beat t) = false := by
  simp [has_tremolo_picking, make_chord_beat, List.any_map, Function.comp]

lemma mem_create_no_tremolo (beat : Beat) (s : Option TremoloPicking) (b' : Beat)
    (hm : b' ∈ (create_individual_notes beat s).1) : has_tremolo_picking b' = false := by
  unfold create_individual_notes at hm
  dsimp only at hm
  split_ifs at hm with h
  · exact (List.eq_of_mem_replicate hm) ▸ has_tremolo_chord beat _
  · simp at hm

lemma collect_aux_append (i : ℕ) (L M : List Beat) :
    collect_aux i (L ++ M) = collect_aux i L ++ collect_aux (i + L.length) M := by
  induction L generalizing i with
  | nil => simp [collect_aux]
  | cons b rest ih =>
      have harith : i + 1 + rest.length = i + (rest.length + 1) := by omega
      simp only [List.cons_append, collect_aux, List.length_cons, List.append_eq]
      rw [ih (i + 1), harith]
      simp [List.append_assoc]

lemma collect_aux_idx_lt (L : List Beat) :
    ∀ i, ∀ it ∈ collect_aux i L, it.1 < i + L.length := by
  induction L with
  | nil => simp [collect_aux]
  | cons b rest ih =>
      intro i it hit
      simp only [collect_aux, List.mem_append] at hit
      rcases hit with h | h
      · split_ifs at h with hb
        · simp only [List.mem_singleton] at h
          subst h
          simp
        · simp at h
      · have := ih (i + 1) it h
        simp only [List.length_cons]
        omega

lemma set_append_of_lt {α : Type} {L T : List α} {i : ℕ} (h : i < L.length) (x : α) :
    (L ++ T).set i x = L.set i x ++ T := by
  induction L generalizing i with
  | nil => simp at h
  | cons b rest ih =>
      cases i with
      | zero => simp
      | succ j =>
          simp only [List.cons_append, List.set_cons_succ]
          rw [ih (by simpa using h)]

lemma set_append_length {α : Type} (L : List α) (b x : α) (T : List α) :
    (L ++ b :: T).set L.length x = L ++ x :: T := by
  induction L with
  | nil => simp
  | cons c rest ih => simp [ih]

lemma apply_one_length_le (L : List Beat) (it : Nat × Beat × Option TremoloPicking) :
    L.length ≤ (apply_one L it).length := by
  obtain ⟨i, b, s⟩ := it
  unfold apply_one
  dsimp only
  split_ifs with h
  · simp
  · push_neg at h
    simp only [List.length_append, List.length_take, List.length_drop]
    omega

lemma apply_one_append {L T : List Beat} {it : Nat × Beat × Option TremoloPicking}
    (h : it.1 < L.length) : apply_one (L ++ T) it = apply_one L it ++ T := by
  obtain ⟨i, b, s⟩ := it
  dsimp only at h
  unfold apply_one
  dsimp only
  split_ifs with hle
  · exact set_append_of_lt h _
  · rw [List.take_append_of_le_length (le_of_lt h),
      List.drop_append_of_le_length (by omega)]
    simp [List.append_assoc]

lemma foldl_apply_one_append (items : List (Nat × Beat × Option TremoloPicking)) :
    ∀ L T : List Beat, (∀ it ∈ items, it.1 < L.length) →
    List.foldl apply_one (L ++ T) items = List.foldl apply_one L items ++ T := by
  induction items with
  | nil => intro L T _; simp
  | cons it rest ih =>
      intro L T h
      simp only [List.foldl_cons]
      rw [apply_one_append (h it (by simp))]
      exact ih _ T (fun it2 hit2 =>
        lt_of_lt_of_le (h it2 (by simp [hit2])) (apply_one_length_le L it))

/-- Main characterisation: the reverse-index fold of lines 192-207 on the
beats collected from the unmutated voice equals one application of the
per-beat policy to every beat, in order. -/
lemma convert_beats_eq (L : List Beat) :
    List.foldl apply_one L (collect_aux 0 L).reverse = L.flatMap beatRewriteSpec := by
  induction L using List.reverseRecOn with
  | nil => simp [collect_aux]
  | append_singleton L b ih =>
      rw [collect_aux_append]
      simp only [Nat.zero_add]
      have hsingle : collect_aux L.length [b]
          = if has_tremolo_picking b then [(L.length, b, extract_tremolo_speed b)] else [] := by
        simp [collect_aux]
      rw [hsingle]
      have hbounds : ∀ it ∈ (collect_aux 0 L).reverse, it.1 < L.length := by
        intro it hit
        have := collect_aux_idx_lt L 0 it (List.mem_reverse.1 hit)
        omega
      by_cases htrem : has_tremolo_picking b
      · rw [if_pos htrem, List.reverse_append]
        simp only [List.reverse_singleton, List.singleton_append, List.foldl_cons]
        have hspec : beatRewriteSpec b
            = if ((create_individual_notes b (extract_tremolo_speed b)).1.length ≤ 1)
              then [remove_tremolo_effect b]
              else (create_individual_notes b (extract_tremolo_speed b)).1 := by
          simp [beatRewriteSpec, htrem]
        by_cases hnb : (create_individual_notes b (extract_tremolo_speed b)).1.length ≤ 1
        · have happ : apply_one (L ++ [b]) (L.length, b, extract_tremolo_speed b)
              = L ++ [remove_tremolo_effect b] := by
            unfold apply_one
            dsimp only
            rw [if_pos hnb]
            exact set_append_length L b _ []
          rw [happ, foldl_apply_one_append _ L _ hbounds, ih, List.flatMap_append]
          simp only [List.flatMap_cons, List.flatMap_nil, List.append_nil]
          rw [hspec, if_pos hnb]
        · have happ : apply_one (L ++ [b]) (L.length, b, extract_tremolo_speed b)
              = L ++ (create_individual_notes b (extract_tremolo_speed b)).1 := by
            unfold apply_one
            dsimp only
            rw [if_neg hnb]
            rw [List.take_append_of_le_length (le_refl L.length), List.take_length,
              List.drop_eq_nil_of_le (by simp), List.append_nil]
          rw [happ, foldl_apply_one_append _ L _ hbounds, ih, List.flatMap_append]
          simp only [List.flatMap_cons, List.flatMap_nil, List.append_nil]
          rw [hspec, if_neg hnb]
      · rw [if_neg htrem, List.append_nil]
        have hspec : beatRewriteSpec b = [b] := by simp [beatRewriteSpec, htrem]
        rw [List.flatMap_append]
        simp only [List.flatMap_cons, List.flatMap_nil, List.append_nil]
        rw [foldl_apply_one_append _ L _ hbounds, ih, hspec]

/-- The voice rewriter equals the per-beat policy applied across the voice. -/
lemma convert_voice_eq (voice : Voice) :
    convert_voice voice = Voice.mk (voice.beats.flatMap beatRewriteSpec) := by
  unfold convert_voice
  rw [convert_beats_eq]

/-! Lemmas about the Timing Validator. -/

/-- The kept beats are an initial segment of the original list. -/
lemma keep_beats_take (capacity : ℚ) :
    ∀ (beats : List Beat) (current : ℚ),
    ∃ k, keep_beats capacity current beats = beats.take k := by
  intro beats
  induction beats with
  | nil => intro current; exact ⟨0, rfl⟩
  | cons b rest ih =>
      intro current
      unfold keep_beats
      dsimp only
      split_ifs with h
      · obtain ⟨k, hk⟩ := ih (current + get_beat_duration_fraction b)
        exact ⟨k + 1, by rw [hk]; simp⟩
      · exact ⟨0, rfl⟩

/-- The kept beats stay within capacity. -/
lemma keep_beats_sum (capacity : ℚ) :
    ∀ (beats : List Beat) (current : ℚ), current ≤ capacity →
    current + sum_durations (keep_beats capacity current beats) ≤ capacity := by
  intro beats
  induction beats with
  | nil =>
      intro current hc
      simpa [keep_beats, sum_durations_nil] using hc
  | cons b rest ih =>
      intro current hc
      unfold keep_beats
      dsimp only
      split_ifs with h
      · rw [sum_durations_cons]
        have := ih (current + get_beat_duration_fraction b) h
        linarith
      · simpa [sum_durations_nil] using hc

/-- No longer prefix fits: any prefix length whose cumulative duration still
fits within capacity is at most the kept length. -/
lemma keep_beats_longest (capacity : ℚ) :
    ∀ (beats : List Beat) (current : ℚ) (j : ℕ), j ≤ beats.length →
    current + sum_durations (beats.take j) ≤ capacity →
    j ≤ (keep_beats capacity current beats).length := by
  intro beats
  induction beats with
  | nil =>
      intro current j hj _
      simp only [List.length_nil, Nat.le_zero] at hj
      simp [hj]
  | cons b rest ih =>
      intro current j hj hsum
      cases j with
      | zero => simp
      | succ j' =>
          have hd := get_beat_duration_fraction_nonneg b
          rw [List.take_succ_cons, sum_durations_cons] at hsum
          have hrest := sum_durations_nonneg (rest.take j')
          have hfit : current + get_beat_duration_fraction b ≤ capacity := by linarith
          unfold keep_beats
          dsimp only
          rw [if_pos hfit]
          simp only [List.length_cons]
          have := ih (current + get_beat_duration_fraction b) j' (by simpa using hj)
            (by linarith)
          omega

/-- Unfolding of the validator once the capacity read succeeds. -/
lemma validate_measure_eq (measure : Measure) (capacity : ℚ) (ws : List String)
    (hget : get_time_signature_duration measure = .ok (capacity, ws)) :
    validate_measure_timing measure
      = .ok { measure with voices := measure.voices.map (validate_voice capacity) } := by
  unfold validate_measure_timing
  rw [hget]

/-! Further helper lemmas about the subdivider. -/

/-- On a beat with notes, the subdivider output is a replication of the
chord-clone beat, one per counted slot. -/
lemma create_eq_replicate (beat : Beat) (s : Option TremoloPicking)
    (h : 0 < beat.notes.length) :
    (create_individual_notes beat s).1
      = List.replicate
          (subdivision_count (get_beat_duration_fraction beat)
            (duration_to_fraction (resolve_target s).1))
          (make_chord_beat beat (resolve_target s).1) := by
  unfold create_individual_notes
  simp [h]

/-- The warnings of the subdivider are exactly those of target resolution. -/
lemma create_warnings (beat : Beat) (s : Option TremoloPicking) :
    (create_individual_notes beat s).2 = (resolve_target s).2 := by
  unfold create_individual_notes
  dsimp only
  split_ifs <;> rfl

/-- With both dot flags clear the duration fraction is the plain reciprocal. -/
lemma duration_to_fraction_plain (v : ℕ) :
    duration_to_fraction v = 1 / (v : ℚ) := rfl

/-! Concrete inputs used by witnesses and counterexamples. -/

/-- A plain fretted note without effects. -/
def plainNote : Note :=
  { value := 64, string := 3, type := 1, velocity := 95, effect := ⟨none⟩ }

/-- A quarter-note beat carrying a beat-level sixteenth tremolo marker. -/
def quarterBeat : Beat :=
  { duration := ⟨4, false, false⟩
    effect := ⟨some ⟨⟨16, false, false⟩⟩⟩
    notes := [plainNote] }

/-- A beat carrying an eighth-speed beat-level marker and a note whose own
effect carries a thirty-second-speed marker. -/
def beatBothMarkers : Beat :=
  { duration := ⟨4, false, false⟩
    effect := ⟨some ⟨⟨8, false, false⟩⟩⟩
    notes := [{ value := 64, string := 3, type := 1, velocity := 95, effect := ⟨some ⟨⟨32, false, false⟩⟩⟩ }] }

/-- A rest beat (no notes) carrying a tremolo marker. -/
def restTremoloBeat : Beat :=
  { duration := ⟨4, false, false⟩
    effect := ⟨some ⟨⟨16, false, false⟩⟩⟩
    notes := [] }

/-- The rest beat after marker stripping. -/
def strippedRestBeat : Beat :=
  { duration := ⟨4, false, false⟩, effect := ⟨none⟩, notes := [] }

/-- A one-voice measure holding only the marked rest beat. -/
def restMeasure : Measure :=
  { tsHeader := none, voices := [Voice.mk [restTremoloBeat]] }

/-- A quarter-duration beat with no notes and no effects. -/
def quarterPlain : Beat :=
  { duration := ⟨4, false, false⟩, effect := ⟨none⟩, notes := [] }

/-- A 4/4 time signature with readable integer attributes. -/
def fourFourTS : TimeSignature := ⟨some (.vint 4), some (.vint 4)⟩

/-- Five quarter beats: total 5/4, overflowing a 4/4 measure. -/
def overflowVoice : Voice :=
  Voice.mk [quarterPlain, quarterPlain, quarterPlain, quarterPlain, quarterPlain]

/-- Four quarter beats: total 1, exactly filling a 4/4 measure. -/
def fittingVoice : Voice :=
  Voice.mk [quarterPlain, quarterPlain, quarterPlain, quarterPlain]

/-- A 4/4 measure whose single voice overflows. -/
def overflowMeasure : Measure :=
  { tsHeader := some fourFourTS, voices := [overflowVoice] }

/-- A 4/4 measure whose single voice fits exactly. -/
def fittingMeasure : Measure :=
  { tsHeader := some fourFourTS, voices := [fittingVoice] }

/-- A measure with a 4/0 time signature (zero denominator). -/
def zeroDenMeasure : Measure :=
  { tsHeader := some ⟨some (.vint 4), some (.vint 0)⟩, voices := [] }

/-- A measure whose time-signature numerator attribute is missing. -/
def missingNumMeasure : Measure :=
  { tsHeader := some ⟨none, some (.vint 4)⟩, voices := [] }

/-! Claim theorems. -/

/-- C1: for a beat with at least one note, the subdivider resolves a target
duration t in 8/16/32 and returns exactly floor(originalFraction / (1/t))
replacement beats, each of duration value t with both dot flags cleared and a
neutral effect, each holding one clone per original note with identical
pitch, string, type and velocity and a neutral note effect. -/
theorem subdivider_slot_count_and_clones (beat : Beat) (s : Option TremoloPicking)
    (hn : beat.notes ≠ []) :
    ((resolve_target s).1 = 8 ∨ (resolve_target s).1 = 16 ∨ (resolve_target s).1 = 32)
    ∧ (create_individual_notes beat s).1.length
        = (⌊get_beat_duration_fraction beat
            / ((1 : ℚ) / ((resolve_target s).1 : ℚ))⌋).toNat
    ∧ ∀ nb ∈ (create_individual_notes beat s).1,
        nb.duration.value = (resolve_target s).1
        ∧ nb.duration.isDotted = false
        ∧ nb.duration.isDoubleDotted = false
        ∧ nb.effect.tremoloPicking = none
        ∧ List.Forall₂ (fun (n2 n1 : Note) =>
              n2.value = n1.value ∧ n2.string = n1.string ∧ n2.type = n1.type
                ∧ n2.velocity = n1.velocity ∧ n2.effect.tremoloPicking = none)
            nb.notes beat.notes := by
  have hpos : 0 < beat.notes.length := List.length_pos.2 hn
  have hrepl := create_eq_replicate beat s hpos
  refine ⟨resolve_target_cases s, ?_, ?_⟩
  · rw [hrepl, List.length_replicate,
      subdivision_count_eq_floor _ (resolve_target_fraction_pos s) _
        (get_beat_duration_fraction_nonneg beat),
      duration_to_fraction_plain]
  · intro nb hnb
    rw [hrepl] at hnb
    have hb := List.eq_of_mem_replicate hnb
    subst hb
    refine ⟨rfl, rfl, rfl, rfl, ?_⟩
    unfold make_chord_beat
    dsimp only
    rw [List.forall₂_map_left_iff]
    exact List.forall₂_same.2 (fun n _ => ⟨rfl, rfl, rfl, rfl, rfl⟩)

/-- C1 witness: the quarter-note beat with sixteenth speed; the hypothesis
(nonempty chord) holds and the theorem applies. -/
theorem subdivider_slot_count_and_clones_witness :
    quarterBeat.notes ≠ []
    ∧ (create_individual_notes quarterBeat (some ⟨⟨16, false, false⟩⟩)).1.length
        = (⌊get_beat_duration_fraction quarterBeat
            / ((1 : ℚ) / ((resolve_target (some ⟨⟨16, false, false⟩⟩)).1 : ℚ))⌋).toNat :=
  ⟨by decide,
    (subdivider_slot_count_and_clones quarterBeat (some ⟨⟨16, false, false⟩⟩) (by decide)).2.1⟩

/-- C8: durationToFraction is 1/d bare, (1/d)(7/4) whenever double-dotted is
set (dotted ignored), (1/d)(3/2) when only dotted; in particular 4 dotted is
3/8 and 8 double-dotted is 7/32. -/
theorem duration_fraction_values :
    (∀ d : ℕ, duration_to_fraction d false false = 1 / (d : ℚ))
    ∧ (∀ (d : ℕ) (dotted : Bool), duration_to_fraction d dotted true = 1 / (d : ℚ) * (7 / 4))
    ∧ (∀ d : ℕ, duration_to_fraction d true false = 1 / (d : ℚ) * (3 / 2))
    ∧ duration_to_fraction 4 true false = 3 / 8
    ∧ duration_to_fraction 8 false true = 7 / 32 := by
  refine ⟨fun d => rfl, fun d dotted => rfl, fun d => rfl, ?_, ?_⟩
  · norm_num [duration_to_fraction]
  · norm_num [duration_to_fraction]

/-- C3 counterexample: a beat carrying both a beat-level (eighth) and a
note-level (thirty-second) marker; the extracted speed is the note-level one,
not the beat-level one the claim prefers. -/
theorem extract_speed_beat_level_counterexample :
    beatBothMarkers.effect.tremoloPicking = some ⟨⟨8, false, false⟩⟩
    ∧ extract_tremolo_speed beatBothMarkers = some ⟨⟨32, false, false⟩⟩
    ∧ extract_tremolo_speed beatBothMarkers ≠ beatBothMarkers.effect.tremoloPicking := by
  refine ⟨rfl, rfl, ?_⟩
  decide

/-- Closed form of the note scan: the accumulator survives only when no note
carries a marker. -/
lemma find_note_tremolo_eq (acc : Option TremoloPicking) (notes : List Note) :
    find_note_tremolo acc notes
      = match (notes.filterMap (fun note => note.effect.tremoloPicking)).head? with
        | some t => some t
        | none => acc := by
  induction notes with
  | nil => rfl
  | cons n rest ih =>
      unfold find_note_tremolo
      cases hn : n.effect.tremoloPicking with
      | some t => simp [List.filterMap_cons, hn]
      | none =>
          rw [ih]
          simp [List.filterMap_cons, hn]

/-- C3 amended: speed extraction returns the first note-level marker when any
note carries one, and falls back to the beat-level marker only when no note
does (note level takes precedence over beat level). -/
theorem extract_speed_note_level_first (beat : Beat) :
    extract_tremolo_speed beat
      = match (beat.notes.filterMap (fun note => note.effect.tremoloPicking)).head? with
        | some t => some t
        | none => beat.effect.tremoloPicking :=
  find_note_tremolo_eq beat.effect.tremoloPicking beat.notes

/-- C2: the measure rewriter is extensionally one pass of the per-beat policy
over every voice: a tremolo beat with at most one replacement stays at its
position with its tremolo markers stripped (duration untouched), one with two
or more replacements is replaced in place by them, and all other beats keep
their relative order; moreover marker stripping never changes a duration. -/
theorem rewriter_splices_per_policy (measure : Measure) :
    (convert_tremolo_in_measure measure).1.voices
        = measure.voices.map (fun voice => Voice.mk (voice.beats.flatMap beatRewriteSpec))
    ∧ ∀ beat : Beat, (remove_tremolo_effect beat).duration = beat.duration := by
  constructor
  · unfold convert_tremolo_in_measure
    dsimp only
    have hfun : convert_voice
        = fun voice => Voice.mk (voice.beats.flatMap beatRewriteSpec) :=
      funext convert_voice_eq
    rw [hfun]
  · intro beat
    rfl

/-- C9: after the rewriter has run, no beat of any voice of the measure
carries a tremolo marker. -/
theorem no_tremolo_after_rewrite (measure : Measure) (v : Voice) (b : Beat)
    (hv : v ∈ (convert_tremolo_in_measure measure).1.voices) (hb : b ∈ v.beats) :
    has_tremolo_picking b = false := by
  unfold convert_tremolo_in_measure at hv
  dsimp only at hv
  obtain ⟨v0, hv0, hconv⟩ := List.mem_map.1 hv
  rw [convert_voice_eq] at hconv
  subst hconv
  obtain ⟨a, ha, hba⟩ := List.mem_flatMap.1 hb
  by_cases ht : has_tremolo_picking a
  · simp only [beatRewriteSpec, if_pos ht] at hba
    split_ifs at hba with h2
    · simp only [List.mem_singleton] at hba
      subst hba
      exact has_tremolo_remove a
    · exact mem_create_no_tremolo a _ b hba
  · simp only [beatRewriteSpec, if_neg ht, List.mem_singleton] at hba
    subst hba
    exact Bool.not_eq_true _ ▸ eq_false_of_ne_true ht

/-- C9 witness: rewriting the one-voice rest measure leaves a single stripped
beat, and the theorem shows it carries no marker. -/
theorem no_tremolo_after_rewrite_witness :
    Voice.mk [strippedRestBeat] ∈ (convert_tremolo_in_measure restMeasure).1.voices
    ∧ strippedRestBeat ∈ (Voice.mk [strippedRestBeat]).beats
    ∧ has_tremolo_picking strippedRestBeat = false :=
  ⟨by decide, by decide,
    no_tremolo_after_rewrite restMeasure (Voice.mk [strippedRestBeat]) strippedRestBeat
      (by decide) (by decide)⟩

/-- C4 counterexample: the marked rest beat yields zero replacement beats,
but the rewriter does not leave it untouched: its effect descriptor loses the
tremolo marker. -/
theorem rest_beat_not_untouched :
    (create_individual_notes restTremoloBeat (extract_tremolo_speed restTremoloBeat)).1 = []
    ∧ (convert_tremolo_in_measure restMeasure).1.voices = [Voice.mk [strippedRestBeat]]
    ∧ strippedRestBeat.effect ≠ restTremoloBeat.effect := by
  refine ⟨rfl, by decide, by decide⟩

/-- C4 amended: a marked rest beat yields zero replacement beats and the
rewriter keeps it at its index as a single beat with unchanged duration and
empty note list, but with its tremolo marker stripped. -/
theorem rest_beat_stripped_in_place (b : Beat) (s : Option TremoloPicking)
    (measure : Measure) (hrest : b.notes = [])
    (htrem : has_tremolo_picking b = true) :
    (create_individual_notes b s).1 = []
    ∧ beatRewriteSpec b = [remove_tremolo_effect b]
    ∧ (remove_tremolo_effect b).duration = b.duration
    ∧ (remove_tremolo_effect b).effect.tremoloPicking = none
    ∧ (remove_tremolo_effect b).notes = []
    ∧ (convert_tremolo_in_measure measure).1.voices
        = measure.voices.map (fun voice => Voice.mk (voice.beats.flatMap beatRewriteSpec)) := by
  have hzero : ¬ 0 < b.notes.length := by simp [hrest]
  have hcreate : ∀ s2 : Option TremoloPicking, (create_individual_notes b s2).1 = [] := by
    intro s2
    unfold create_individual_notes
    simp [hzero]
  refine ⟨hcreate s, ?_, rfl, rfl, by simp [remove_tremolo_effect, hrest], ?_⟩
  · simp [beatRewriteSpec, htrem, hcreate]
  · unfold convert_tremolo_in_measure
    dsimp only
    have hfun : convert_voice
        = fun voice => Voice.mk (voice.beats.flatMap beatRewriteSpec) :=
      funext convert_voice_eq
    rw [hfun]

/-- C4 amended witness: applied to the concrete marked rest beat and the
one-voice rest measure. -/
theorem rest_beat_stripped_in_place_witness :
    restTremoloBeat.notes = []
    ∧ has_tremolo_picking restTremoloBeat = true
    ∧ (create_individual_notes restTremoloBeat (some ⟨⟨16, false, false⟩⟩)).1 = []
    ∧ beatRewriteSpec restTremoloBeat = [remove_tremolo_effect restTremoloBeat] :=
  ⟨by decide, by decide,
    (rest_beat_stripped_in_place restTremoloBeat (some ⟨⟨16, false, false⟩⟩) restMeasure
      (by decide) (by decide)).1,
    (rest_beat_stripped_in_place restTremoloBeat (some ⟨⟨16, false, false⟩⟩) restMeasure
      (by decide) (by decide)).2.1⟩

/-- C6: when the speed object is absent or its denominator is not 8, 16 or
32, the subdivider resolves the target to 16, emits a diagnostic, and
produces exactly the replacement sequence it would produce for an explicit
sixteenth speed. -/
theorem subdivider_fallback_sixteenth (beat : Beat) (s : Option TremoloPicking)
    (hbad : s = none
      ∨ ∃ sp, s = some sp ∧ sp.duration.value ≠ 8 ∧ sp.duration.value ≠ 16
          ∧ sp.duration.value ≠ 32) :
    (resolve_target s).1 = 16
    ∧ (create_individual_notes beat s).1
        = (create_individual_notes beat (some ⟨⟨16, false, false⟩⟩)).1
    ∧ (create_individual_notes beat s).2 ≠ [] := by
  have h16 : (resolve_target s).1 = 16 := by
    rcases hbad with h | ⟨sp, hsp, h8, h16, h32⟩
    · rw [h]
      rfl
    · rw [hsp]
      unfold resolve_target
      dsimp only
      rw [if_neg h8, if_neg h16, if_neg h32]
  have hwarn : (resolve_target s).2 ≠ [] := by
    rcases hbad with h | ⟨sp, hsp, h8, h16, h32⟩
    · rw [h]
      exact List.cons_ne_nil _ _
    · rw [hsp]
      unfold resolve_target
      dsimp only
      rw [if_neg h8, if_neg h16, if_neg h32]
      exact List.cons_ne_nil _ _
  refine ⟨h16, ?_, ?_⟩
  · have h16b : (resolve_target (some ⟨⟨16, false, false⟩⟩)).1 = 16 := rfl
    unfold create_individual_notes
    dsimp only
    rw [h16, h16b]
    split_ifs <;> rfl
  · rw [create_warnings]
    exact hwarn

/-- C6 witness: an unrecognised speed denominator of 5 on the quarter beat. -/
theorem subdivider_fallback_sixteenth_witness :
    (resolve_target (some ⟨⟨5, false, false⟩⟩)).1 = 16
    ∧ (create_individual_notes quarterBeat (some ⟨⟨5, false, false⟩⟩)).1
        = (create_individual_notes quarterBeat (some ⟨⟨16, false, false⟩⟩)).1
    ∧ (create_individual_notes quarterBeat (some ⟨⟨5, false, false⟩⟩)).2 ≠ [] :=
  subdivider_fallback_sixteenth quarterBeat (some ⟨⟨5, false, false⟩⟩)
    (Or.inr ⟨⟨⟨5, false, false⟩⟩, rfl, by decide, by decide, by decide⟩)

/-- C5: when a voice of the measure overflows the capacity, the validator
keeps exactly an initial segment of its beats (beats unchanged, order
unchanged, nothing inserted) whose total duration fits, and no longer prefix
would fit. -/
theorem validator_truncates_overflow (measure : Measure) (capacity : ℚ)
    (ws : List String) (v : Voice)
    (hget : get_time_signature_duration measure = Except.ok (capacity, ws))
    (hcap : 0 ≤ capacity)
    (_hv : v ∈ measure.voices)
    (hover : capacity < sum_durations v.beats) :
    validate_measure_timing measure
        = Except.ok { measure with voices := measure.voices.map (validate_voice capacity) }
    ∧ (∃ k, (validate_voice capacity v).beats = v.beats.take k)
    ∧ sum_durations (validate_voice capacity v).beats ≤ capacity
    ∧ ∀ j, j ≤ v.beats.length → sum_durations (v.beats.take j) ≤ capacity →
        j ≤ (validate_voice capacity v).beats.length := by
  have hvv : validate_voice capacity v = Voice.mk (keep_beats capacity 0 v.beats) := by
    unfold validate_voice
    rw [if_pos hover]
  refine ⟨validate_measure_eq measure capacity ws hget, ?_, ?_, ?_⟩
  · rw [hvv]
    exact keep_beats_take capacity v.beats 0
  · rw [hvv]
    have := keep_beats_sum capacity v.beats 0 hcap
    dsimp only
    linarith
  · intro j hj hsum
    rw [hvv]
    exact keep_beats_longest capacity v.beats 0 j hj (by linarith)

/-- Computation of the capacity for the readable 4/4 signature. -/
lemma try_read_fourfour : try_read_ts fourFourTS = Except.ok 1 := by
  have h : try_read_ts fourFourTS
      = Except.ok (((4 : Int) : ℚ) / ((4 : Int) : ℚ)) := rfl
  have h2 : ((4 : Int) : ℚ) / ((4 : Int) : ℚ) = 1 := by norm_num
  rw [h, h2]

/-- Capacity of a measure carrying the readable 4/4 signature. -/
lemma get_ts_fourfour (measure : Measure) (hm : measure.tsHeader = some fourFourTS) :
    get_time_signature_duration measure = Except.ok (1, []) := by
  unfold get_time_signature_duration
  rw [hm]
  dsimp only
  rw [try_read_fourfour]

/-- Total duration of the overflowing example voice. -/
lemma sum_overflowVoice : sum_durations overflowVoice.beats = 5 / 4 := by
  norm_num [sum_durations, overflowVoice, quarterPlain, get_beat_duration_fraction,
    duration_to_fraction]

/-- Total duration of the exactly fitting example voice. -/
lemma sum_fittingVoice : sum_durations fittingVoice.beats = 1 := by
  norm_num [sum_durations, fittingVoice, quarterPlain, get_beat_duration_fraction,
    duration_to_fraction]

/-- C5 witness: five quarter beats in a 4/4 measure (capacity 1, total 5/4);
the validator truncates the voice to a fitting initial segment. -/
theorem validator_truncates_overflow_witness :
    (get_time_signature_duration overflowMeasure = Except.ok (1, [])
      ∧ (0 : ℚ) ≤ 1
      ∧ overflowVoice ∈ overflowMeasure.voices
      ∧ (1 : ℚ) < sum_durations overflowVoice.beats)
    ∧ (∃ k, (validate_voice 1 overflowVoice).beats = overflowVoice.beats.take k)
    ∧ sum_durations (validate_voice 1 overflowVoice).beats ≤ 1 :=
  ⟨⟨get_ts_fourfour overflowMeasure rfl, by norm_num, by simp [overflowMeasure],
      by rw [sum_overflowVoice]; norm_num⟩,
    (validator_truncates_overflow overflowMeasure 1 [] overflowVoice
      (get_ts_fourfour overflowMeasure rfl) (by norm_num) (by simp [overflowMeasure])
      (by rw [sum_overflowVoice]; norm_num)).2.1,
    (validator_truncates_overflow overflowMeasure 1 [] overflowVoice
      (get_ts_fourfour overflowMeasure rfl) (by norm_num) (by simp [overflowMeasure])
      (by rw [sum_overflowVoice]; norm_num)).2.2.1⟩

/-- C10: when a voice already fits the capacity, the validator returns it
completely unchanged. -/
theorem validator_keeps_fitting_voice (measure : Measure) (capacity : ℚ)
    (ws : List String) (v : Voice)
    (hget : get_time_signature_duration measure = Except.ok (capacity, ws))
    (_hv : v ∈ measure.voices)
    (hfit : sum_durations v.beats ≤ capacity) :
    validate_measure_timing measure
        = Except.ok { measure with voices := measure.voices.map (validate_voice capacity) }
    ∧ validate_voice capacity v = v := by
  refine ⟨validate_measure_eq measure capacity ws hget, ?_⟩
  unfold validate_voice
  rw [if_neg (not_lt.2 hfit)]

/-- C10 witness: four quarter beats exactly filling a 4/4 measure are left
untouched by the validator. -/
theorem validator_keeps_fitting_voice_witness :
    (get_time_signature_duration fittingMeasure = Except.ok (1, [])
      ∧ fittingVoice ∈ fittingMeasure.voices
      ∧ sum_durations fittingVoice.beats ≤ 1)
    ∧ validate_voice 1 fittingVoice = fittingVoice :=
  ⟨⟨get_ts_fourfour fittingMeasure rfl, by simp [fittingMeasure],
      by rw [sum_fittingVoice]⟩,
    (validator_keeps_fitting_voice fittingMeasure 1 [] fittingVoice
      (get_ts_fourfour fittingMeasure rfl) (by simp [fittingMeasure])
      (by rw [sum_fittingVoice])).2⟩

/-- C7 counterexample: a zero denominator (a malformed but present value)
raises `ZeroDivisionError`, which no handler catches, so the computation does
not return 1 for every shape and value of the time signature. -/
theorem capacity_exceptions_counterexample :
    get_time_signature_duration zeroDenMeasure = Except.error PyErr.zeroDivisionError := by
  rfl

/-- Computation of the default once the time-signature read fails with an
attribute error (the inner retry performs the identical reads and fails the
same way, landing in the bare `except`). -/
lemma get_ts_attr_default (measure : Measure) (ts : TimeSignature)
    (hm : measure.tsHeader = some ts)
    (herr : try_read_ts ts = Except.error PyErr.attributeError) :
    get_time_signature_duration measure
      = Except.ok (1, ["Warning: Could not reliably read time signature numerator/denominator. Defaulting to 4/4."]) := by
  unfold get_time_signature_duration
  rw [hm]
  dsimp only
  rw [herr]

/-- Computation of the default once the time-signature read fails with a
type error. -/
lemma get_ts_type_default (measure : Measure) (ts : TimeSignature)
    (hm : measure.tsHeader = some ts)
    (herr : try_read_ts ts = Except.error PyErr.typeError) :
    get_time_signature_duration measure
      = Except.ok (1, ["Warning: Time signature numerator or denominator are not valid numbers. Defaulting to 4/4."]) := by
  unfold get_time_signature_duration
  rw [hm]
  dsimp only
  rw [herr]

/-- C7 amended: when every time-signature attribute is either a readable
integer, missing, or None, and at least one is missing or None, the capacity
computation returns exactly 1 together with one diagnostic, without raising;
but (per the counterexample) a zero denominator or a non-numeric string
propagates an uncaught exception. -/
theorem capacity_defaults_to_whole (measure : Measure) (ts : TimeSignature)
    (hm : measure.tsHeader = some ts)
    (hnum : (∃ n, ts.numerator = some (PyVal.vint n))
      ∨ ts.numerator = none ∨ ts.numerator = some PyVal.vnone)
    (hden : (∃ n, ts.denominator = some (PyVal.vint n))
      ∨ ts.denominator = none ∨ ts.denominator = some PyVal.vnone)
    (hbad : ts.numerator = none ∨ ts.numerator = some PyVal.vnone
      ∨ ts.denominator = none ∨ ts.denominator = some PyVal.vnone) :
    get_time_signature_duration measure
        = Except.ok (1, ["Warning: Could not reliably read time signature numerator/denominator. Defaulting to 4/4."])
    ∨ get_time_signature_duration measure
        = Except.ok (1, ["Warning: Time signature numerator or denominator are not valid numbers. Defaulting to 4/4."]) := by
  rcases hnum with ⟨n, hn⟩ | hn | hn
  · rcases hden with ⟨d, hd⟩ | hd | hd
    · exfalso
      rcases hbad with h | h | h | h <;> simp_all
    · refine Or.inl (get_ts_attr_default measure ts hm ?_)
      unfold try_read_ts
      rw [hn, hd]
      rfl
    · refine Or.inr (get_ts_type_default measure ts hm ?_)
      unfold try_read_ts
      rw [hn, hd]
      rfl
  · refine Or.inl (get_ts_attr_default measure ts hm ?_)
    unfold try_read_ts
    rw [hn]
    rfl
  · refine Or.inr (get_ts_type_default measure ts hm ?_)
    unfold try_read_ts
    rw [hn]
    rfl

/-- C7 amended witness: a measure whose numerator attribute is missing
defaults to capacity 1 with the attribute-error diagnostic. -/
theorem capacity_defaults_to_whole_witness :
    missingNumMeasure.tsHeader = some ⟨none, some (.vint 4)⟩
    ∧ (get_time_signature_duration missingNumMeasure
        = Except.ok (1, ["Warning: Could not reliably read time signature numerator/denominator. Defaulting to 4/4."])
      ∨ get_time_signature_duration missingNumMeasure
        = Except.ok (1, ["Warning: Time signature numerator or denominator are not valid numbers. Defaulting to 4/4."])) :=
  ⟨rfl,
    capacity_defaults_to_whole missingNumMeasure ⟨none, some (.vint 4)⟩ rfl
      (Or.inr (Or.inl rfl)) (Or.inl ⟨4, rfl⟩) (Or.inl rfl)⟩

end Tremolo
